import Mathlib

/-!
Verification of the GROUP BY aggregation core and the result-container
limit/offset behaviour of a SPARQL-style query engine.

The definitions below are a shallow embedding of the C++ sources
(src/engine/GroupBy.cpp and, for the limit/offset clause, the behaviour
fixed by src/test/ResultTest.cpp).  Machine strings are embedded as
List Char, the opaque 64-bit Id as Nat, IEEE floats as exact rationals
(only the control flow of the numeric kernels is at stake, never
rounding), and fallible reads return Option.
-/

namespace QLever

/-- Opaque 64-bit value identifier; DISTINCT compares these bitwise, which is
Nat equality in the embedding. -/
abbrev Ident := Nat

/-- One row of an IdTable. -/
abbrev Row := List Ident

/-- Per-column value encoding, from ResultTable::ResultType. -/
inductive ResultType
  | VERBATIM
  | FLOAT
  | STRING
  | TEXT
  | KB
  | UNDEF
deriving DecidableEq, Repr

/-- Aggregate function kinds, from GroupBy::AggregateType. -/
inductive AggregateType
  | AVG
  | COUNT
  | FIRST
  | GROUP_CONCAT
  | LAST
  | MAX
  | MIN
  | SAMPLE
  | SUM
deriving DecidableEq, Repr

/-- The per-result append-only string store (ResultTable::_localVocab). -/
abbrev LocalVocab := List (List Char)

/-- Reading an entry of the local vocabulary at an index. -/
def localVocabGet (v : LocalVocab) (i : Nat) : List Char :=
  v.getD i []

/-- The read-only Index capability together with the float-in-Id decoding
conventions (see spec section 6): idToString, getTextExcerpt, the typed
literal markers, and the conversion helpers.  All are opaque parameters of
the engine. -/
structure Env where
  idToString : Ident → List Char
  getTextExcerpt : Ident → List Char
  floatOfId : Ident → ℚ
  floatToChars : ℚ → List Char
  convertIndexWordToFloatValue : List Char → ℚ
  convertIndexWordToValueLiteral : List Char → List Char
  valueMarker : List Char
  valueFloatMarker : List Char
  floatLowest : ℚ
  floatHighest : ℚ

/-! ### String helpers (ad_utility and std::string operations) -/

/-- ad_utility::startsWith: does the first list begin with the second. -/
def startsWithL : List Char → List Char → Bool
  | _, [] => true
  | [], _ :: _ => false
  | c :: s, p :: ps => c = p && startsWithL s ps

/-- std::string::find(pattern) != npos: the pattern occurs as a contiguous
substring. -/
def containsSub : List Char → List Char → Bool
  | [], pat => startsWithL [] pat
  | c :: t, pat => startsWithL (c :: t) pat || containsSub t pat

/-- std::string::find(char): index of the first occurrence. -/
def findCharIdx (c : Char) : List Char → Option Nat
  | [] => none
  | x :: t => if x = c then some 0 else (findCharIdx c t).map (· + 1)

/-- std::string::rfind(char): index of the last occurrence. -/
def rfindCharIdx (c : Char) (s : List Char) : Option Nat :=
  (findCharIdx c s.reverse).map (fun i => s.length - 1 - i)

/-- std::string::substr(pos, len). -/
def substrL (s : List Char) (pos len : Nat) : List Char :=
  (s.drop pos).take len

/-- ad_utility::strip(s, chars): remove the given characters from both ends. -/
def stripL (cs : List Char) (s : List Char) : List Char :=
  ((s.dropWhile (fun c => cs.contains c)).reverse.dropWhile
    (fun c => cs.contains c)).reverse

/-- The whitespace characters stripped around variable names in GroupBy.cpp. -/
def wsChars : List Char := [' ', '\t']

/-! ### Deduplication by raw identifier (first occurrence kept)

This is the specification-side description of the DISTINCT hash-set
discipline: a value contributes iff it was not seen before. -/

/-- Elements of the list not already in the seen set, first occurrences kept
in order. -/
def dedupAux {α} [DecidableEq α] : List α → List α → List α
  | [], _ => []
  | v :: rest, seen =>
    if v ∈ seen then dedupAux rest seen else v :: dedupAux rest (seen ++ [v])

/-- Deduplicate keeping the first occurrence of each element. -/
def dedupFirst {α} [DecidableEq α] (l : List α) : List α :=
  dedupAux l []

/-! ### GROUP_CONCAT kernel (processGroup, case GROUP_CONCAT)

The source iterates indices blockStart .. blockEnd-1 appending the decoded
value followed by the separator, then handles the value at blockEnd
separately.  We pass the run as the values at blockStart .. blockEnd-1
(argument init) plus the value at blockEnd (argument lastV). -/

/-- Decoding of one input value per declared column type, as in the five
branches of the GROUP_CONCAT case.  The catch-all branch is the vocabulary
(KB) decoding of the source's else branch. -/
def concatDecode (env : Env) (inVocab : LocalVocab) (ty : ResultType)
    (v : Ident) : List Char :=
  match ty with
  | .VERBATIM => (Nat.repr v).toList
  | .FLOAT => env.floatToChars (env.floatOfId v)
  | .TEXT => env.getTextExcerpt v
  | .STRING => localVocabGet inVocab v
  | _ =>
    let e := env.idToString v
    if startsWithL e env.valueMarker then env.convertIndexWordToValueLiteral e
    else e

/-- The non-distinct loop over blockStart .. blockEnd-1: every element is
followed by the separator. -/
def joinLoop (dec : Ident → List Char) (delim : List Char)
    (init : List Ident) : List Char :=
  init.foldl (fun acc v => acc ++ dec v ++ delim) []

/-- The distinct loop over blockStart .. blockEnd-1: a value is emitted
(followed by the separator) iff it is not in the hash set yet; returns the
built string and the final seen set. -/
def joinDistinctLoop (dec : Ident → List Char) (delim : List Char) :
    List Ident → List Ident → List Char × List Ident
  | [], seen => ([], seen)
  | v :: rest, seen =>
    if v ∈ seen then joinDistinctLoop dec delim rest seen
    else
      let p := joinDistinctLoop dec delim rest (seen ++ [v])
      (dec v ++ delim ++ p.1, p.2)

/-- The string built by the GROUP_CONCAT kernel for one run.  In the
distinct case the value at blockEnd is emitted only if unseen; the VERBATIM
branch of the source appends the separator even after this last value
(GroupBy.cpp line 265), the other type branches do not. -/
def groupConcatString (env : Env) (inVocab : LocalVocab) (ty : ResultType)
    (distinct : Bool) (delim : List Char) (init : List Ident)
    (lastV : Ident) : List Char :=
  let dec := concatDecode env inVocab ty
  if distinct then
    let p := joinDistinctLoop dec delim init []
    if lastV ∈ p.2 then p.1
    else
      p.1 ++ dec lastV ++ (match ty with | .VERBATIM => delim | _ => [])
  else
    joinLoop dec delim init ++ dec lastV

/-- The GROUP_CONCAT cell write (GroupBy.cpp lines 380-381): the output cell
receives the current size of the output local vocabulary and the built
string is appended to it. -/
def processGroupConcat (env : Env) (inVocab : LocalVocab) (ty : ResultType)
    (distinct : Bool) (delim : List Char) (init : List Ident) (lastV : Ident)
    (outVocab : LocalVocab) : Ident × LocalVocab :=
  (outVocab.length,
   outVocab ++ [groupConcatString env inVocab ty distinct delim init lastV])

/-- Specification-side GROUP_CONCAT: values joined by the separator with no
separator after the last element. -/
def joinWithSep (delim : List Char) : List (List Char) → List Char
  | [] => []
  | [x] => x
  | x :: y :: rest => x ++ delim ++ joinWithSep delim (y :: rest)

/-- Specification-side GROUP_CONCAT over the whole run (values at
blockStart .. blockEnd), deduplicated by raw identifier keeping first
occurrences when distinct is set; written from the claim's words for
comparison with groupConcatString. -/
def claimGroupConcat (env : Env) (inVocab : LocalVocab) (ty : ResultType)
    (distinct : Bool) (delim : List Char) (vals : List Ident) : List Char :=
  joinWithSep delim
    ((if distinct then dedupFirst vals else vals).map
      (concatDecode env inVocab ty))

/-- A concrete index environment for evaluating the kernels on closed
inputs. -/
def envTrivial : Env where
  idToString := fun _ => []
  getTextExcerpt := fun _ => []
  floatOfId := fun _ => 0
  floatToChars := fun _ => []
  convertIndexWordToFloatValue := fun _ => 0
  convertIndexWordToValueLiteral := fun e => e
  valueMarker := []
  valueFloatMarker := []
  floatLowest := 0
  floatHighest := 0

/-! ### LIMIT / OFFSET (Result::applyLimitOffset) -/

/-- LimitOffsetClause: limit (absent means unlimited) and offset. -/
structure LimitOffsetClause where
  limit : Option Nat
  offset : Nat

/-- Modelled from the spec: the implementation of Result::applyLimitOffset is
not part of the examined sources (only its tests in test/ResultTest.cpp
are), so this follows the spec's words: the rewritten result emits only the
rows in the window [offset, offset + limit) of the source rows. -/
def applyLimitOffset {α} (c : LimitOffsetClause) (rows : List α) : List α :=
  (rows.drop c.offset).take (c.limit.getD (rows.drop c.offset).length)

/-! ### Numeric SUM / AVG kernels (processGroup, cases SUM and AVG)

The accumulator is a float in the source; we embed its value as an exact
rational and the NaN state as none.  The SUM and AVG cases of processGroup
duplicate the same accumulation loops, so both definitions below call the
same per-type accumulators, then AVG divides by the run length. -/

/-- Plain accumulation loop: add the decoded value of every row of the
run. -/
def sumAccPlain (f : Ident → ℚ) (vals : List Ident) : ℚ :=
  vals.foldl (fun acc v => acc + f v) 0

/-- Distinct accumulation loop: a value is added only when it is not in the
hash set yet (raw identifier equality). -/
def sumAccDistinct (f : Ident → ℚ) : List Ident → List Ident → ℚ
  | [], _ => 0
  | v :: rest, seen =>
    if v ∈ seen then sumAccDistinct f rest seen
    else f v + sumAccDistinct f rest (seen ++ [v])

/-- Vocabulary (KB) accumulation without distinct: decode each value via
idToString; on the first string not starting with the float marker the
result becomes NaN and the loop breaks, otherwise the terminal character is
trimmed and the float conversion applied. -/
def sumKBPlain (env : Env) : List Ident → ℚ → Option ℚ
  | [], acc => some acc
  | v :: rest, acc =>
    let e := env.idToString v
    if startsWithL e env.valueFloatMarker then
      sumKBPlain env rest (acc + env.convertIndexWordToFloatValue e.dropLast)
    else none

/-- Vocabulary (KB) accumulation with distinct: values already in the hash
set are skipped, otherwise as in sumKBPlain. -/
def sumKBDistinct (env : Env) : List Ident → List Ident → ℚ → Option ℚ
  | [], _, acc => some acc
  | v :: rest, seen, acc =>
    if v ∈ seen then sumKBDistinct env rest seen acc
    else
      let e := env.idToString v
      if startsWithL e env.valueFloatMarker then
        sumKBDistinct env rest (seen ++ [v])
          (acc + env.convertIndexWordToFloatValue e.dropLast)
      else none

/-- The SUM kernel over the run's values at the input column.  VERBATIM
interprets identifiers as integers, FLOAT decodes the bit-packed float,
TEXT and STRING yield NaN, every other type takes the vocabulary path. -/
def processSum (env : Env) (ty : ResultType) (distinct : Bool)
    (vals : List Ident) : Option ℚ :=
  match ty with
  | .VERBATIM =>
    some (if distinct then sumAccDistinct (fun v => (v : ℚ)) vals []
          else sumAccPlain (fun v => (v : ℚ)) vals)
  | .FLOAT =>
    some (if distinct then sumAccDistinct env.floatOfId vals []
          else sumAccPlain env.floatOfId vals)
  | .TEXT => none
  | .STRING => none
  | _ => if distinct then sumKBDistinct env vals [] 0 else sumKBPlain env vals 0

/-- The AVG kernel: the same accumulation as SUM, then division by the run
length blockEnd - blockStart + 1, which is the number of values of the run
(GroupBy.cpp line 229); a NaN accumulator stays NaN. -/
def processAvg (env : Env) (ty : ResultType) (distinct : Bool)
    (vals : List Ident) : Option ℚ :=
  (match ty with
   | .VERBATIM =>
     some (if distinct then sumAccDistinct (fun v => (v : ℚ)) vals []
           else sumAccPlain (fun v => (v : ℚ)) vals)
   | .FLOAT =>
     some (if distinct then sumAccDistinct env.floatOfId vals []
           else sumAccPlain env.floatOfId vals)
   | .TEXT => none
   | .STRING => none
   | _ =>
     if distinct then sumKBDistinct env vals [] 0
     else sumKBPlain env vals 0).map
    (fun res => res / (vals.length : ℚ))

/-- The decoded float of one vocabulary entry: trim the terminal character,
then convert. -/
def kbDecode (env : Env) (v : Ident) : ℚ :=
  env.convertIndexWordToFloatValue (env.idToString v).dropLast

/-- A concrete index environment whose vocabulary entry for identifier 0 is
a float literal (marker F, value 5) and whose other entries are plain
words. -/
def envKB : Env where
  idToString := fun n => if n = 0 then "F5x".toList else "bad".toList
  getTextExcerpt := fun _ => []
  floatOfId := fun _ => 0
  floatToChars := fun _ => []
  convertIndexWordToFloatValue := fun _ => 5
  convertIndexWordToValueLiteral := fun e => e
  valueMarker := []
  valueFloatMarker := "F".toList
  floatLowest := 0
  floatHighest := 0

/-! ### Run splitting (doGroupBy)

doGroupBy walks the sorted input and hands each maximal equal-key block
[blockStart, blockEnd] to processGroup.  We embed the block boundaries it
produces.  When the group-by column list is empty the source passes
blockStart = 0 and blockEnd = input->size() (GroupBy.cpp lines 539-540). -/

/-- The key of a row restricted to the group-by columns. -/
def rowKey (cols : List Nat) (r : Row) : List Ident :=
  cols.map (fun c => r.getD c 0)

/-- The scan of doGroupBy from position pos onward: a row starting a new
block closes the current one at pos - 1; after the last row the final block
is emitted. -/
def runsAux (cols : List Nat) (key : List Ident) (blockStart pos : Nat) :
    List Row → List (Nat × Nat)
  | [] => [(blockStart, pos - 1)]
  | r :: rest =>
    if rowKey cols r = key then runsAux cols key blockStart (pos + 1) rest
    else (blockStart, pos - 1) :: runsAux cols (rowKey cols r) pos (pos + 1) rest

/-- All blocks [blockStart, blockEnd] handed to processGroup by doGroupBy:
none for empty input, the single block (0, input.size()) for an empty
group-by column list, otherwise the maximal equal-key runs. -/
def doGroupByBlocks (cols : List Nat) (input : List Row) : List (Nat × Nat) :=
  match input with
  | [] => []
  | r0 :: rest =>
    if cols.isEmpty then [(0, (r0 :: rest).length)]
    else runsAux cols (rowKey cols r0) 0 1 rest

/-- The COUNT kernel without distinct writes blockEnd - blockStart + 1. -/
def countNonDistinct (blockStart blockEnd : Nat) : Nat :=
  blockEnd - blockStart + 1

/-- Reading the input value of column inCol at row i; none when the row
index is past the end of the input (an out-of-bounds read in the source). -/
def colVal (input : List Row) (inCol i : Nat) : Option Ident :=
  (input.get? i).map (fun r => r.getD inCol 0)

/-- The values of the run blockStart .. blockEnd at column inCol; none when
the run end is past the input (the kernels would read out of bounds). -/
def runVals (input : List Row) (inCol blockStart blockEnd : Nat) :
    Option (List Ident) :=
  if blockEnd < input.length then
    some (((input.drop blockStart).take (blockEnd - blockStart + 1)).map
      (fun r => r.getD inCol 0))
  else none

/-! ### Aggregate alias parsing (GroupBy::computeResult) -/

/-- The head-token classification of an alias function string
(GroupBy.cpp lines 784-802): the first of the seven aggregate names that
the string starts with wins; a string starting with none of them is
skipped. -/
def parseAggKind (fn : List Char) : Option AggregateType :=
  if startsWithL fn "COUNT".toList then some .COUNT
  else if startsWithL fn "GROUP_CONCAT".toList then some .GROUP_CONCAT
  else if startsWithL fn "SAMPLE".toList then some .SAMPLE
  else if startsWithL fn "MIN".toList then some .MIN
  else if startsWithL fn "MAX".toList then some .MAX
  else if startsWithL fn "SUM".toList then some .SUM
  else if startsWithL fn "AVG".toList then some .AVG
  else none

/-- The outcome of parsing one aggregate alias: kind, distinct flag,
argument variable name, GROUP_CONCAT separator. -/
structure ParsedAgg where
  type : AggregateType
  distinct : Bool
  inVarName : List Char
  sep : List Char
deriving DecidableEq, Repr

/-- The alias parsing of GroupBy::computeResult (lines 804-872): locate the
outer parentheses, set the distinct flag iff the string contains the
substring DISTINCT or distinct, take the argument between the parentheses
(up to the semicolon for GROUP_CONCAT, whose separator is the content
between the first and last quote after it, defaulting to a single space),
drop the leading 8 characters of the whitespace-stripped argument when
distinct, and strip whitespace.  When the parentheses are malformed the
source leaves the fields of the aggregate in their default state and the
argument empty; we model that state with distinct = false and an empty
variable name. -/
def parseAlias (fn : List Char) : Option ParsedAgg :=
  match parseAggKind fn with
  | none => none
  | some ty =>
    match findCharIdx '(' fn, rfindCharIdx ')' fn with
    | some varStart, some varStop =>
      if varStart < varStop then
        let d := containsSub fn "DISTINCT".toList
              || containsSub fn "distinct".toList
        if ty = .GROUP_CONCAT then
          match findCharIdx ';' fn with
          | some dp =>
            let inV := substrL fn (varStart + 1) (dp - varStart - 1)
            let inV := if d then (stripL wsChars inV).drop 8 else inV
            let concatString :=
              stripL [' '] (substrL fn (dp + 1) (varStop - dp - 1))
            let sep :=
              match findCharIdx '"' concatString,
                    rfindCharIdx '"' concatString with
              | some sc, some ec =>
                if sc < ec then substrL concatString (sc + 1) (ec - sc - 1)
                else " ".toList
              | _, _ => " ".toList
            some ⟨ty, d, stripL wsChars inV, sep⟩
          | none =>
            let inV := substrL fn (varStart + 1) (varStop - varStart - 1)
            let inV := if d then (stripL wsChars inV).drop 8 else inV
            some ⟨ty, d, stripL wsChars inV, " ".toList⟩
        else
          let inV := substrL fn (varStart + 1) (varStop - varStart - 1)
          let inV := if d then (stripL wsChars inV).drop 8 else inV
          some ⟨ty, d, stripL wsChars inV, " ".toList⟩
      else some ⟨ty, false, [], " ".toList⟩
    | _, _ => some ⟨ty, false, [], " ".toList⟩

/-- Lower-casing a character list; used only to state the claim's notion of
a case-insensitive keyword occurrence. -/
def toLowerL (s : List Char) : List Char :=
  s.map Char.toLower

/-! ### The remaining kernels and the full GROUP BY pipeline -/

/-- One aggregate descriptor (GroupBy::Aggregate): kind, input column,
output column, distinct flag, and the GROUP_CONCAT separator held in
userData. -/
structure Aggregate where
  type : AggregateType
  inCol : Nat
  outCol : Nat
  distinct : Bool
  userData : List Char
deriving DecidableEq, Repr

/-- An output cell value.  The source bit-packs every cell into a 64-bit
Id; we keep the decoded content instead and record an out-of-bounds input
read as its own state. -/
inductive MVal
  | idv (v : Ident)
  | fl (q : Option ℚ)
  | strIdx (n : Nat)
  | noValue
  | oobRead
deriving DecidableEq

/-- numeric_limits of the unsigned 64-bit Id: lowest and max. -/
def idMaxVal : Nat := 2 ^ 64 - 1

/-- The MAX kernel over the run's values (initial value lowest per type;
TEXT and STRING emit ID_NO_VALUE). -/
def maxKernel (env : Env) (ty : ResultType) (vals : List Ident) : MVal :=
  match ty with
  | .VERBATIM => .idv (vals.foldl max 0)
  | .FLOAT =>
    .fl (some (vals.foldl (fun acc v => max acc (env.floatOfId v))
      env.floatLowest))
  | .TEXT => .noValue
  | .STRING => .noValue
  | _ => .idv (vals.foldl max 0)

/-- The MIN kernel over the run's values (initial value highest per type;
TEXT and STRING emit ID_NO_VALUE). -/
def minKernel (env : Env) (ty : ResultType) (vals : List Ident) : MVal :=
  match ty with
  | .VERBATIM => .idv (vals.foldl min idMaxVal)
  | .FLOAT =>
    .fl (some (vals.foldl (fun acc v => min acc (env.floatOfId v))
      env.floatHighest))
  | .TEXT => .noValue
  | .STRING => .noValue
  | _ => .idv (vals.foldl min idMaxVal)

/-- The COUNT kernel: run length without distinct, number of unique raw
identifiers with distinct (reading the run values). -/
def countKernel (distinct : Bool) (input : List Row) (inCol blockStart
    blockEnd : Nat) : MVal :=
  if distinct then
    match runVals input inCol blockStart blockEnd with
    | none => .oobRead
    | some vals => .idv (dedupFirst vals).length
  else .idv (countNonDistinct blockStart blockEnd)

/-- One kernel invocation of processGroup: the cell written for aggregate a
on the block [blockStart, blockEnd], threading the output local
vocabulary. -/
def processGroup (env : Env) (a : Aggregate) (blockStart blockEnd : Nat)
    (input : List Row) (inputTypes : List ResultType)
    (inVocab outVocab : LocalVocab) : MVal × LocalVocab :=
  let tyIn := inputTypes.getD a.inCol .UNDEF
  match a.type with
  | .AVG =>
    (match runVals input a.inCol blockStart blockEnd with
     | none => .oobRead
     | some vals => .fl (processAvg env tyIn a.distinct vals), outVocab)
  | .COUNT => (countKernel a.distinct input a.inCol blockStart blockEnd,
      outVocab)
  | .GROUP_CONCAT =>
    (match colVal input a.inCol blockEnd with
     | none => (.oobRead, outVocab)
     | some lastV =>
       let init := ((input.drop blockStart).take (blockEnd - blockStart)).map
         (fun r => r.getD a.inCol 0)
       let p := processGroupConcat env inVocab tyIn a.distinct a.userData
         init lastV outVocab
       (.strIdx p.1, p.2))
  | .MAX =>
    (match runVals input a.inCol blockStart blockEnd with
     | none => .oobRead
     | some vals => maxKernel env tyIn vals, outVocab)
  | .MIN =>
    (match runVals input a.inCol blockStart blockEnd with
     | none => .oobRead
     | some vals => minKernel env tyIn vals, outVocab)
  | .SAMPLE =>
    (match colVal input a.inCol blockEnd with
     | none => .oobRead
     | some v => .idv v, outVocab)
  | .SUM =>
    (match runVals input a.inCol blockStart blockEnd with
     | none => .oobRead
     | some vals => .fl (processSum env tyIn a.distinct vals), outVocab)
  | .FIRST =>
    (match colVal input a.inCol blockStart with
     | none => .oobRead
     | some v => .idv v, outVocab)
  | .LAST =>
    (match colVal input a.inCol blockEnd with
     | none => .oobRead
     | some v => .idv v, outVocab)

/-- One output row: each aggregate writes its cell in order (the output
columns are assigned consecutively in the same order the aggregates are
built), threading the output local vocabulary. -/
def processRow (env : Env) (aggs : List Aggregate) (blockStart blockEnd : Nat)
    (input : List Row) (inputTypes : List ResultType)
    (inVocab : LocalVocab) (outVocab : LocalVocab) :
    List MVal × LocalVocab :=
  match aggs with
  | [] => ([], outVocab)
  | a :: rest =>
    let p := processGroup env a blockStart blockEnd input inputTypes inVocab
      outVocab
    let q := processRow env rest blockStart blockEnd input inputTypes inVocab
      p.2
    (p.1 :: q.1, q.2)

/-- doGroupBy: one output row per block handed out by the run splitting,
threading the output local vocabulary. -/
def doGroupByRows (env : Env) (cols : List Nat) (aggs : List Aggregate)
    (input : List Row) (inputTypes : List ResultType)
    (inVocab : LocalVocab) : List (List MVal) × LocalVocab :=
  (doGroupByBlocks cols input).foldl
    (fun acc b =>
      let p := processRow env aggs b.1 b.2 input inputTypes inVocab acc.2
      (acc.1 ++ [p.1], p.2))
    ([], [])

/-! ### Constructor and orchestration (GroupBy::GroupBy and
GroupBy::computeResult) -/

/-- A parsed-query alias as handed to the GroupBy constructor: output
variable name, original function text, aggregate flag. -/
structure Alias where
  outVarName : List Char
  function : List Char
  isAggregate : Bool
deriving DecidableEq, Repr

instance : DecidableRel (fun a b : Alias => a.outVarName ≤ b.outVarName) :=
  fun a b => inferInstanceAs (Decidable (a.outVarName ≤ b.outVarName))

instance : IsTotal Alias (fun a b : Alias => a.outVarName ≤ b.outVarName) :=
  ⟨fun a b => le_total a.outVarName b.outVarName⟩

instance : IsTrans Alias (fun a b : Alias => a.outVarName ≤ b.outVarName) :=
  ⟨fun _ _ _ h1 h2 => le_trans h1 h2⟩

/-- The stored alias list of the constructor: non-aggregate aliases
discarded, the rest sorted by output variable name. -/
def groupByAliases (aliases : List Alias) : List Alias :=
  List.insertionSort (fun a b : Alias => a.outVarName ≤ b.outVarName)
    (aliases.filter (fun a => a.isAggregate))

/-- The output column layout fixed by the constructor: the group-by
variables sorted lexicographically, then the kept aliases sorted by output
variable name. -/
def columnLayout (gvars : List (List Char)) (aliases : List Alias) :
    List (List Char) :=
  List.insertionSort (· ≤ ·) gvars
    ++ (groupByAliases aliases).map (fun a => a.outVarName)

/-- getResultWidth: the size of the variable-to-column map, i.e. the number
of distinct names in the layout. -/
def getResultWidth (gvars : List (List Char)) (aliases : List Alias) : Nat :=
  (dedupFirst (columnLayout gvars aliases)).length

/-- std::unordered_map::find on the variable-to-column map of the
sub-operation. -/
def lookupVC (m : List (List Char × Nat)) (k : List Char) : Option Nat :=
  match m with
  | [] => none
  | kv :: rest => if kv.1 = k then some kv.2 else lookupVC rest k

/-- The group-by variable loop of computeResult: resolve every variable to
its input column; the first missing variable aborts with none. -/
def resolveGroupVars (m : List (List Char × Nat)) :
    List (List Char) → Option (List Nat)
  | [] => some []
  | v :: rest =>
    match lookupVC m v with
    | none => none
    | some c => (resolveGroupVars m rest).map (fun cs => c :: cs)

/-- The alias loop of computeResult: skip non-aggregates and unknown
function heads (with a warning in the source), parse the rest, resolve the
argument variable; the first unresolved variable aborts with none. -/
def resolveAliases (m : List (List Char × Nat)) :
    List Alias → Option (List (AggregateType × Bool × Nat × List Char))
  | [] => some []
  | al :: rest =>
    if al.isAggregate then
      match parseAlias al.function with
      | none => resolveAliases m rest
      | some pa =>
        match lookupVC m pa.inVarName with
        | none => none
        | some c =>
          (resolveAliases m rest).map
            (fun l => (pa.type, pa.distinct, c, pa.sep) :: l)
    else resolveAliases m rest

/-- The aggregate vector of computeResult: a SAMPLE pseudo-aggregate per
group-by column (copying the key column through), then the parsed aliases;
output columns are assigned consecutively in this order. -/
def mkAggregates (gcols : List Nat)
    (parsed : List (AggregateType × Bool × Nat × List Char)) :
    List Aggregate :=
  ((gcols.map (fun c => (AggregateType.SAMPLE, false, c, ([] : List Char))))
    ++ parsed.map (fun p => (p.1, p.2.1, p.2.2.1, p.2.2.2))).enum.map
    (fun ip => ⟨ip.2.1, ip.2.2.2.1, ip.1, ip.2.2.1, ip.2.2.2.2⟩)

/-- The result of a GROUP BY computation: declared column count, rows, and
the output local vocabulary. -/
structure GBResult where
  nofColumns : Nat
  rows : List (List MVal)
  localVocab : LocalVocab
deriving DecidableEq

/-- GroupBy::computeResult over the stored (sorted) group-by variables and
aliases: resolve the group-by variables, then the aggregate aliases; any
missing variable yields an empty result of the declared width (the source
logs a warning and returns), otherwise run the grouping. -/
def computeResult (env : Env) (gvars : List (List Char))
    (aliases : List Alias) (m : List (List Char × Nat))
    (inputTypes : List ResultType) (input : List Row)
    (inVocab : LocalVocab) : GBResult :=
  let width := getResultWidth gvars aliases
  match resolveGroupVars m gvars with
  | none => ⟨width, [], []⟩
  | some gcols =>
    match resolveAliases m (groupByAliases aliases) with
    | none => ⟨width, [], []⟩
    | some parsed =>
      let aggs := mkAggregates gcols parsed
      let p := doGroupByRows env gcols aggs input inputTypes inVocab
      ⟨width, p.1, p.2⟩

/-! ### Accumulator lemmas -/

lemma sumAccPlain_eq (f : Ident → ℚ) (vals : List Ident) :
    sumAccPlain f vals = (vals.map f).sum := by
  suffices h : ∀ acc, vals.foldl (fun a v => a + f v) acc = acc + (vals.map f).sum by
    simpa [sumAccPlain] using h 0
  induction vals with
  | nil => simp
  | cons v rest ih => intro acc; simp [ih]; ring

lemma sumAccDistinct_eq (f : Ident → ℚ) :
    ∀ (vals seen : List Ident),
      sumAccDistinct f vals seen = ((dedupAux vals seen).map f).sum := by
  intro vals
  induction vals with
  | nil => intro seen; simp [sumAccDistinct, dedupAux]
  | cons v rest ih =>
    intro seen
    by_cases h : v ∈ seen <;> simp [sumAccDistinct, dedupAux, h, ih]

lemma sumKBPlain_good (env : Env) :
    ∀ (vals : List Ident) (acc : ℚ),
      (∀ v ∈ vals, startsWithL (env.idToString v) env.valueFloatMarker = true) →
      sumKBPlain env vals acc = some (acc + (vals.map (kbDecode env)).sum) := by
  intro vals
  induction vals with
  | nil => intro acc _; simp [sumKBPlain]
  | cons v rest ih =>
    intro acc h
    have hv := h v (by simp)
    rw [sumKBPlain]
    simp only [hv, if_true]
    rw [ih _ (fun w hw => h w (by simp [hw]))]
    simp [kbDecode]
    ring

lemma sumKBPlain_bad (env : Env) :
    ∀ (vals : List Ident) (acc : ℚ),
      (∃ v ∈ vals, startsWithL (env.idToString v) env.valueFloatMarker = false) →
      sumKBPlain env vals acc = none := by
  intro vals
  induction vals with
  | nil => intro acc h; simp at h
  | cons v rest ih =>
    intro acc h
    rw [sumKBPlain]
    by_cases hv : startsWithL (env.idToString v) env.valueFloatMarker = true
    · simp only [hv, if_true]
      apply ih
      rcases h with ⟨w, hw, hbad⟩
      rcases List.mem_cons.mp hw with rfl | hw'
      · rw [hv] at hbad; exact absurd hbad (by simp)
      · exact ⟨w, hw', hbad⟩
    · simp [hv]

lemma sumKBDistinct_good (env : Env) :
    ∀ (vals seen : List Ident) (acc : ℚ),
      (∀ v ∈ dedupAux vals seen,
        startsWithL (env.idToString v) env.valueFloatMarker = true) →
      sumKBDistinct env vals seen acc
        = some (acc + ((dedupAux vals seen).map (kbDecode env)).sum) := by
  intro vals
  induction vals with
  | nil => intro seen acc _; simp [sumKBDistinct, dedupAux]
  | cons v rest ih =>
    intro seen acc h
    by_cases hs : v ∈ seen
    · rw [sumKBDistinct]
      simp only [hs, if_true]
      rw [ih _ _ (by simpa [dedupAux, hs] using h)]
      simp [dedupAux, hs]
    · have hv := h v (by simp [dedupAux, hs])
      rw [sumKBDistinct]
      simp only [hs, if_false, hv, if_true]
      rw [ih _ _ (by
        intro w hw
        exact h w (by simp [dedupAux, hs, hw]))]
      simp [dedupAux, hs, kbDecode]
      ring

lemma sumKBDistinct_bad (env : Env) :
    ∀ (vals seen : List Ident) (acc : ℚ),
      (∃ v ∈ dedupAux vals seen,
        startsWithL (env.idToString v) env.valueFloatMarker = false) →
      sumKBDistinct env vals seen acc = none := by
  intro vals
  induction vals with
  | nil => intro seen acc h; simp [dedupAux] at h
  | cons v rest ih =>
    intro seen acc h
    by_cases hs : v ∈ seen
    · rw [sumKBDistinct]
      simp only [hs, if_true]
      exact ih _ _ (by simpa [dedupAux, hs] using h)
    · rw [sumKBDistinct]
      simp only [hs, if_false]
      by_cases hv : startsWithL (env.idToString v) env.valueFloatMarker = true
      · simp only [hv, if_true]
        apply ih
        rcases h with ⟨w, hw, hbad⟩
        rw [dedupAux] at hw
        simp only [hs, if_false] at hw
        rcases List.mem_cons.mp hw with rfl | hw'
        · rw [hv] at hbad; exact absurd hbad (by simp)
        · exact ⟨w, hw', hbad⟩
      · simp [hv]

/-! ### String-search lemmas -/

lemma startsWithL_iff (p : List Char) : ∀ (s : List Char),
    startsWithL s p = true ↔ p <+: s := by
  induction p with
  | nil => intro s; simp [startsWithL]
  | cons q ps ih =>
    intro s
    cases s with
    | nil => simp [startsWithL]
    | cons c t =>
      simp only [startsWithL, Bool.and_eq_true, decide_eq_true_eq,
        List.cons_prefix_cons, ih]
      constructor
      · rintro ⟨h1, h2⟩; exact ⟨h1.symm, h2⟩
      · rintro ⟨h1, h2⟩; exact ⟨h1.symm, h2⟩

lemma containsSub_iff (p : List Char) : ∀ (s : List Char),
    containsSub s p = true ↔ p <:+: s := by
  intro s
  induction s with
  | nil => simp [containsSub, startsWithL_iff]
  | cons c t ih =>
    simp [containsSub, startsWithL_iff, ih, List.infix_cons_iff]

lemma startsWithL_nil_pat (p : List Char) (hne : p ≠ []) :
    startsWithL [] p = false := by
  cases p with
  | nil => exact absurd rfl hne
  | cons q ps => rfl

lemma containsSub_concat_false (pat : List Char) (c : Char)
    (hne : pat ≠ []) (hlast : pat.getLast? ≠ some c) :
    ∀ (v : List Char), containsSub v pat = false →
      containsSub (v ++ [c]) pat = false := by
  intro v
  induction v with
  | nil =>
    intro _
    rw [List.nil_append, containsSub, containsSub,
      startsWithL_nil_pat pat hne]
    have hsw : startsWithL [c] pat = false := by
      rw [Bool.eq_false_iff]
      intro hT
      have hp := (startsWithL_iff pat [c]).mp hT
      rcases (@List.prefix_concat_iff Char pat [] c).mp hp with h | h
      · rw [h] at hlast; simp at hlast
      · exact hne (List.prefix_nil.mp h)
    simp [hsw]
  | cons x v' ih =>
    intro h
    rw [containsSub, Bool.or_eq_false_iff] at h
    rw [List.cons_append, containsSub]
    have hsw : startsWithL (x :: (v' ++ [c])) pat = false := by
      rw [Bool.eq_false_iff]
      intro hT
      have hp : pat <+: (x :: v') ++ [c] := (startsWithL_iff pat _).mp hT
      rcases (@List.prefix_concat_iff Char pat (x :: v') c).mp hp with hcase | hcase
      · exact hlast (by rw [hcase]; exact List.getLast?_concat _)
      · have hT2 : startsWithL (x :: v') pat = true :=
          (startsWithL_iff pat (x :: v')).mpr hcase
        rw [h.1] at hT2
        simp at hT2
    simp [hsw, ih h.2]

/-! ### Strip and find lemmas -/

lemma mem_wsChars (c : Char) : c ∈ wsChars ↔ (c = ' ' ∨ c = '\t') := by
  simp [wsChars]

lemma stripL_cons_of_mem (cs : List Char) (c : Char) (v : List Char)
    (hc : c ∈ cs) : stripL cs (c :: v) = stripL cs v := by
  simp [stripL, List.dropWhile_cons, hc]

lemma stripL_id_of_ends (cs : List Char) : ∀ (v : List Char), v ≠ [] →
    (∀ c ∈ v, c ∉ cs) → stripL cs v = v := by
  intro v hne hall
  rcases List.eq_nil_or_concat v with rfl | ⟨L, b, rfl⟩
  · exact absurd rfl hne
  · rw [List.concat_eq_append]
    have hb : b ∉ cs := hall b (by simp)
    cases L with
    | nil => simp [stripL, List.dropWhile_cons, hb]
    | cons hv t =>
      have hhv : hv ∉ cs := hall hv (by simp)
      rw [List.cons_append]
      simp [stripL, List.dropWhile_cons, hhv, hb, List.reverse_append]

lemma stripL_pre (cs : List Char) (c : Char) (s : List Char) (v : List Char)
    (hc : c ∉ cs) (hne : v ≠ []) (hall : ∀ x ∈ v, x ∉ cs) :
    stripL cs (c :: (s ++ v)) = c :: (s ++ v) := by
  rcases List.eq_nil_or_concat v with rfl | ⟨L, b, rfl⟩
  · exact absurd rfl hne
  · have hb : b ∉ cs := hall b (by simp)
    simp [stripL, List.dropWhile_cons, hc, hb, List.reverse_append,
      List.concat_eq_append]

lemma findCharIdx_eq_none_iff (c : Char) : ∀ (l : List Char),
    findCharIdx c l = none ↔ c ∉ l := by
  intro l
  induction l with
  | nil => simp [findCharIdx]
  | cons x t ih =>
    by_cases hx : x = c
    · simp [findCharIdx, hx]
    · simp [findCharIdx, hx, ih, Ne.symm hx]

lemma rfindCharIdx_concat (c : Char) (l : List Char) :
    rfindCharIdx c (l ++ [c]) = some l.length := by
  simp [rfindCharIdx, List.reverse_append, findCharIdx]

/-! ### Alias-parsing lemmas for the three canonical forms -/

lemma parse_sum_plain (v : List Char) (hne : v ≠ [])
    (hchars : ∀ c ∈ v, c ≠ ' ' ∧ c ≠ '\t')
    (hD : ¬ "DISTINCT".toList <:+: v) (hd : ¬ "distinct".toList <:+: v) :
    parseAlias ("SUM(".toList ++ (v ++ [')'])) =
      some ⟨.SUM, false, v, " ".toList⟩ := by
  have hD' : containsSub v "DISTINCT".toList = false := by
    rw [Bool.eq_false_iff]
    intro hT
    exact hD ((containsSub_iff _ _).mp hT)
  have hd' : containsSub v "distinct".toList = false := by
    rw [Bool.eq_false_iff]
    intro hT
    exact hd ((containsSub_iff _ _).mp hT)
  have hD1 : containsSub (v ++ [')']) "DISTINCT".toList = false :=
    containsSub_concat_false _ _ (by decide) (by decide) v hD'
  have hd1 : containsSub (v ++ [')']) "distinct".toList = false :=
    containsSub_concat_false _ _ (by decide) (by decide) v hd'
  have hDfull : containsSub ("SUM(".toList ++ (v ++ [')'])) "DISTINCT".toList
      = false := by
    simp only [containsSub, startsWithL]
    simp
    simpa using hD1
  have hdfull : containsSub ("SUM(".toList ++ (v ++ [')'])) "distinct".toList
      = false := by
    simp only [containsSub, startsWithL]
    simp
    simpa using hd1
  have hkind : parseAggKind ("SUM(".toList ++ (v ++ [')'])) = some .SUM := by
    simp [parseAggKind, startsWithL]
  have hfind : findCharIdx '(' ("SUM(".toList ++ (v ++ [')'])) = some 3 := by
    simp [findCharIdx]
  have hshape : ("SUM(".toList ++ (v ++ [')'])) = ("SUM(".toList ++ v) ++ [')'] := by
    simp
  have hrf : rfindCharIdx ')' ("SUM(".toList ++ (v ++ [')']))
      = some (4 + v.length) := by
    rw [hshape, rfindCharIdx_concat]
    simp
    omega
  have hsub : substrL ("SUM(".toList ++ (v ++ [')'])) 4 v.length = v := by
    rw [substrL, show ("SUM(".toList ++ (v ++ [')'])).drop 4 = v ++ [')'] by
      rw [List.drop_append_of_le_length (by simp)]
      simp]
    rw [List.take_append_of_le_length le_rfl, List.take_length]
  have hstrip : stripL wsChars v = v := by
    apply stripL_id_of_ends _ v hne
    intro c hc
    rw [mem_wsChars]
    rintro (rfl | rfl)
    · exact (hchars _ hc).1 rfl
    · exact (hchars _ hc).2 rfl
  have harith : 4 + v.length - 3 - 1 = v.length := by omega
  have hlt : 3 < 4 + v.length := by omega
  rw [parseAlias, hkind, hfind, hrf]
  simp only [hlt, if_true, hDfull, hdfull, Bool.or_false]
  simp only [show (AggregateType.SUM = AggregateType.GROUP_CONCAT) = False by
    simp, if_false]
  simp only [Bool.false_eq_true, if_false, harith, hsub, hstrip]

lemma parse_sum_distinct (v : List Char) (hne : v ≠ [])
    (hchars : ∀ c ∈ v, c ≠ ' ' ∧ c ≠ '\t') :
    parseAlias ("SUM(DISTINCT ".toList ++ (v ++ [')'])) =
      some ⟨.SUM, true, v, " ".toList⟩ := by
  have hvns : ∀ c ∈ v, c ∉ wsChars := by
    intro c hc
    rw [mem_wsChars]
    rintro (rfl | rfl)
    · exact (hchars _ hc).1 rfl
    · exact (hchars _ hc).2 rfl
  have hkind : parseAggKind ("SUM(DISTINCT ".toList ++ (v ++ [')'])) = some .SUM := by
    simp [parseAggKind, startsWithL]
  have hfind : findCharIdx '(' ("SUM(DISTINCT ".toList ++ (v ++ [')'])) = some 3 := by
    simp [findCharIdx]
  have hshape : ("SUM(DISTINCT ".toList ++ (v ++ [')']))
      = ("SUM(DISTINCT ".toList ++ v) ++ [')'] := by simp
  have hrf : rfindCharIdx ')' ("SUM(DISTINCT ".toList ++ (v ++ [')']))
      = some (13 + v.length) := by
    rw [hshape, rfindCharIdx_concat]
    simp
    omega
  have hDtrue : containsSub ("SUM(DISTINCT ".toList ++ (v ++ [')'])) "DISTINCT".toList
      = true := by
    apply (containsSub_iff _ _).mpr
    exact ⟨"SUM(".toList, ' ' :: (v ++ [')']), by simp⟩
  have hsub : substrL ("SUM(DISTINCT ".toList ++ (v ++ [')'])) 4 (9 + v.length)
      = "DISTINCT ".toList ++ v := by
    rw [substrL, show ("SUM(DISTINCT ".toList ++ (v ++ [')'])).drop 4
        = "DISTINCT ".toList ++ (v ++ [')']) by
      rw [List.drop_append_of_le_length (by simp)]
      simp]
    rw [show 9 + v.length = "DISTINCT ".toList.length + v.length by simp,
      List.take_append, List.take_append_of_le_length le_rfl, List.take_length]
  have hstrip1 : stripL wsChars ("DISTINCT ".toList ++ v)
      = "DISTINCT ".toList ++ v := by
    rw [show "DISTINCT ".toList ++ v = 'D' :: ("ISTINCT ".toList ++ v) by simp]
    exact stripL_pre wsChars 'D' "ISTINCT ".toList v (by simp [wsChars]) hne hvns
  have hdrop : ("DISTINCT ".toList ++ v).drop 8 = ' ' :: v := by
    rw [List.drop_append_of_le_length (by simp)]
    simp
  have hstrip2 : stripL wsChars (' ' :: v) = v := by
    rw [stripL_cons_of_mem wsChars ' ' v (by simp [wsChars])]
    exact stripL_id_of_ends wsChars v hne hvns
  have harith : 13 + v.length - 3 - 1 = 9 + v.length := by omega
  have hlt : 3 < 13 + v.length := by omega
  rw [parseAlias, hkind, hfind, hrf]
  simp only [hlt, if_true, hDtrue, Bool.true_or]
  simp only [show (AggregateType.SUM = AggregateType.GROUP_CONCAT) = False by
    simp, if_false]
  simp only [if_true, harith, hsub, hstrip1, hdrop, hstrip2]

lemma parse_gc_distinct (v : List Char) (hne : v ≠ [])
    (hchars : ∀ c ∈ v, c ≠ ' ' ∧ c ≠ '\t' ∧ c ≠ ';') :
    parseAlias ("GROUP_CONCAT(distinct ".toList ++ (v ++ [')'])) =
      some ⟨.GROUP_CONCAT, true, v, " ".toList⟩ := by
  have hvns : ∀ c ∈ v, c ∉ wsChars := by
    intro c hc
    rw [mem_wsChars]
    rintro (rfl | rfl)
    · exact (hchars _ hc).1 rfl
    · exact (hchars _ hc).2.1 rfl
  have hkind : parseAggKind ("GROUP_CONCAT(distinct ".toList ++ (v ++ [')']))
      = some .GROUP_CONCAT := by
    simp [parseAggKind, startsWithL]
  have hfind : findCharIdx '(' ("GROUP_CONCAT(distinct ".toList ++ (v ++ [')'])) = some 12 := by
    simp [findCharIdx]
  have hshape : ("GROUP_CONCAT(distinct ".toList ++ (v ++ [')']))
      = ("GROUP_CONCAT(distinct ".toList ++ v) ++ [')'] := by simp
  have hrf : rfindCharIdx ')' ("GROUP_CONCAT(distinct ".toList ++ (v ++ [')']))
      = some (22 + v.length) := by
    rw [hshape, rfindCharIdx_concat]
    simp
    omega
  have hdtrue : containsSub ("GROUP_CONCAT(distinct ".toList ++ (v ++ [')'])) "distinct".toList
      = true := by
    apply (containsSub_iff _ _).mpr
    exact ⟨"GROUP_CONCAT(".toList, ' ' :: (v ++ [')']), by simp⟩
  have hsemi : findCharIdx ';' ("GROUP_CONCAT(distinct ".toList ++ (v ++ [')'])) = none := by
    rw [findCharIdx_eq_none_iff]
    simp only [List.mem_append]
    rintro (h | (h | h))
    · revert h; decide
    · exact (hchars _ h).2.2 rfl
    · simp at h
  have hsub : substrL ("GROUP_CONCAT(distinct ".toList ++ (v ++ [')'])) 13 (9 + v.length)
      = "distinct ".toList ++ v := by
    rw [substrL, show ("GROUP_CONCAT(distinct ".toList ++ (v ++ [')'])).drop 13
        = "distinct ".toList ++ (v ++ [')']) by
      rw [List.drop_append_of_le_length (by simp)]
      simp]
    rw [show 9 + v.length = "distinct ".toList.length + v.length by simp,
      List.take_append, List.take_append_of_le_length le_rfl, List.take_length]
  have hstrip1 : stripL wsChars ("distinct ".toList ++ v)
      = "distinct ".toList ++ v := by
    rw [show "distinct ".toList ++ v = 'd' :: ("istinct ".toList ++ v) by simp]
    exact stripL_pre wsChars 'd' "istinct ".toList v (by simp [wsChars]) hne hvns
  have hdrop : ("distinct ".toList ++ v).drop 8 = ' ' :: v := by
    rw [List.drop_append_of_le_length (by simp)]
    simp
  have hstrip2 : stripL wsChars (' ' :: v) = v := by
    rw [stripL_cons_of_mem wsChars ' ' v (by simp [wsChars])]
    exact stripL_id_of_ends wsChars v hne hvns
  have harith : 22 + v.length - 12 - 1 = 9 + v.length := by omega
  have hlt : 12 < 22 + v.length := by omega
  rw [parseAlias, hkind, hfind, hrf]
  simp only [hlt, if_true, hdtrue, Bool.or_true]
  simp only [if_true, hsemi, harith, hsub, hstrip1, hdrop, hstrip2]

/-! ### Resolution lemmas for computeResult -/

lemma resolveGroupVars_none (m : List (List Char × Nat)) :
    ∀ (l : List (List Char)), (∃ v ∈ l, lookupVC m v = none) →
      resolveGroupVars m l = none := by
  intro l
  induction l with
  | nil => intro h; simp at h
  | cons v rest ih =>
    intro h
    rw [resolveGroupVars]
    cases hv : lookupVC m v with
    | none => rfl
    | some c =>
      rcases h with ⟨w, hw, hmiss⟩
      rcases List.mem_cons.mp hw with rfl | hw'
      · rw [hv] at hmiss; exact absurd hmiss (by simp)
      · rw [ih ⟨w, hw', hmiss⟩]; rfl

lemma resolveAliases_none (m : List (List Char × Nat)) :
    ∀ (l : List Alias),
      (∃ al ∈ l, al.isAggregate = true ∧
        ∃ pa, parseAlias al.function = some pa ∧ lookupVC m pa.inVarName = none) →
      resolveAliases m l = none := by
  intro l
  induction l with
  | nil => intro h; simp at h
  | cons al rest ih =>
    intro h
    rcases h with ⟨w, hw, hagg, pa, hpa, hmiss⟩
    rcases List.mem_cons.mp hw with rfl | hw'
    · rw [resolveAliases]
      simp [hagg, hpa, hmiss]
    · have hrest := ih ⟨w, hw', hagg, pa, hpa, hmiss⟩
      rw [resolveAliases]
      by_cases ha : al.isAggregate = true
      · simp only [ha, if_true]
        cases hp : parseAlias al.function with
        | none => exact hrest
        | some q =>
          cases hq : lookupVC m q.inVarName with
          | none => simp [hq]
          | some c => simp [hq, hrest]
      · simp only [ha, if_false]
        exact hrest

/-! ### Claim theorems -/

/-- C1: the claim says every GROUP_CONCAT output is the decoded values
joined by the separator with no separator after the last element, also
under DISTINCT (deduplicated by raw identifier, first occurrences kept).
Evaluating the kernel at a VERBATIM distinct run shows a trailing
separator: a run holding only the value 1 with separator `,` emits `1,`
while the claimed join is `1`, and a run holding 1 twice also emits `1,`
(the distinct loop appends the separator after its last emitted element,
GroupBy.cpp line 265 and the duplicate-last case of every distinct branch).
The non-distinct kernel agrees with the claimed join on the same data. -/
theorem groupConcat_distinct_trailing_separator :
    groupConcatString envTrivial [] .VERBATIM true ",".toList [] 1 = "1,".toList
    ∧ groupConcatString envTrivial [] .VERBATIM true ",".toList [1] 1 = "1,".toList
    ∧ claimGroupConcat envTrivial [] .VERBATIM true ",".toList [1] = "1".toList
    ∧ claimGroupConcat envTrivial [] .VERBATIM true ",".toList [1, 1] = "1".toList
    ∧ groupConcatString envTrivial [] .VERBATIM false ",".toList [1, 2] 3
        = claimGroupConcat envTrivial [] .VERBATIM false ",".toList [1, 2, 3] := by
  exact ⟨rfl, rfl, rfl, rfl, rfl⟩

/-- C2: the claim says an empty group-by column list over n input rows
hands the kernels the single run covering rows 0 through n-1, so all reads
stay below n.  The source instead hands blockEnd = input.size() = n: on a
one-row input the block is (0, 1), COUNT reports 2 rows, and the SAMPLE
kernel reads row index 1, which is out of bounds. -/
theorem emptyGroupBy_block_bounds_off_by_one :
    doGroupByBlocks [] [[7]] = [(0, 1)]
    ∧ countKernel false [[7]] 0 0 1 = .idv 2
    ∧ processGroup envTrivial ⟨.SAMPLE, 0, 0, false, []⟩ 0 1 [[7]] [.VERBATIM]
        [] [] = (.oobRead, [])
    ∧ ¬ (1 : Nat) < ([[7]] : List Row).length := by
  exact ⟨rfl, rfl, rfl, by decide⟩

/-- C3 counterexample: the claim says the DISTINCT keyword is recognised in
any letter case.  The function string SUM(Distinct ?x) carries the keyword
in mixed case (its lower-casing contains the substring distinct), yet the
parsed descriptor has the distinct flag false, because the source only
searches for the exact substrings DISTINCT and distinct. -/
theorem distinct_mixed_case_not_recognized :
    (parseAlias "SUM(Distinct ?x)".toList).map ParsedAgg.distinct = some false
    ∧ containsSub (toLowerL "SUM(Distinct ?x)".toList) "distinct".toList = true := by
  decide

/-- C3 amended: for an aggregate alias whose argument variable contains no
whitespace or semicolon and no occurrence of the exact substrings DISTINCT
or distinct, the all-uppercase keyword (and, for GROUP_CONCAT, the
all-lowercase keyword) sets the distinct flag and the leading 8-character
token is stripped so that the variable resolves to v; with the keyword
absent the flag is false and the argument is taken verbatim.  Mixed-case
spellings are not recognised (see the counterexample). -/
theorem distinct_keyword_exact_case_parsing (v : List Char) (hne : v ≠ [])
    (hchars : ∀ c ∈ v, c ≠ ' ' ∧ c ≠ '\t' ∧ c ≠ ';')
    (hD : ¬ "DISTINCT".toList <:+: v) (hd : ¬ "distinct".toList <:+: v) :
    parseAlias ("SUM(DISTINCT ".toList ++ (v ++ [')']))
      = some ⟨.SUM, true, v, " ".toList⟩
    ∧ parseAlias ("GROUP_CONCAT(distinct ".toList ++ (v ++ [')']))
      = some ⟨.GROUP_CONCAT, true, v, " ".toList⟩
    ∧ parseAlias ("SUM(".toList ++ (v ++ [')']))
      = some ⟨.SUM, false, v, " ".toList⟩ :=
  ⟨parse_sum_distinct v hne (fun c hc => ⟨(hchars c hc).1, (hchars c hc).2.1⟩),
   parse_gc_distinct v hne hchars,
   parse_sum_plain v hne (fun c hc => ⟨(hchars c hc).1, (hchars c hc).2.1⟩) hD hd⟩

/-- Witness for the amended C3 theorem at the concrete variable ?x. -/
theorem distinct_keyword_exact_case_parsing_witness :
    parseAlias "SUM(DISTINCT ?x)".toList
      = some ⟨.SUM, true, "?x".toList, " ".toList⟩
    ∧ parseAlias "SUM(?x)".toList
      = some ⟨.SUM, false, "?x".toList, " ".toList⟩ := by
  have h := distinct_keyword_exact_case_parsing "?x".toList (by decide)
    (by decide) (by decide) (by decide)
  refine ⟨?_, ?_⟩
  · rw [show "SUM(DISTINCT ?x)".toList
      = "SUM(DISTINCT ".toList ++ ("?x".toList ++ [')']) from rfl]
    exact h.1
  · rw [show "SUM(?x)".toList
      = "SUM(".toList ++ ("?x".toList ++ [')']) from rfl]
    exact h.2.2

/-- C4: the AVG kernel divides the accumulated sum by the run length
regardless of the distinct flag: AVG always equals the SUM kernel's result
divided by the number of values of the run, and in particular distinct AVG
over VERBATIM or FLOAT columns is the sum of the deduplicated values
divided by the full run length, not by the distinct-value count. -/
theorem avg_divides_by_run_length :
    ∀ (env : Env) (ty : ResultType) (distinct : Bool) (vals : List Ident),
    processAvg env ty distinct vals
      = (processSum env ty distinct vals).map (fun s => s / (vals.length : ℚ))
    ∧ processAvg env .VERBATIM true vals
      = some (((dedupFirst vals).map (fun v : Ident => (v : ℚ))).sum
          / (vals.length : ℚ))
    ∧ processAvg env .FLOAT true vals
      = some (((dedupFirst vals).map env.floatOfId).sum / (vals.length : ℚ)) := by
  intro env ty distinct vals
  refine ⟨?_, ?_, ?_⟩
  · cases ty <;> rfl
  · simp [processAvg, sumAccDistinct_eq, dedupFirst]
  · simp [processAvg, sumAccDistinct_eq, dedupFirst]

/-- C5: SUM and AVG over a TEXT or STRING input column are NaN (none); over
a vocabulary (KB) column, when every processed value's string starts with
the float marker the result is the sum of the decoded values (terminal
character trimmed, then converted), and when any processed value's string
lacks the marker the result is NaN — the processed values being the run's
values, deduplicated first under distinct. -/
theorem sum_avg_text_string_nan_kb_decoding :
    ∀ (env : Env) (distinct : Bool) (vals : List Ident),
    processSum env .TEXT distinct vals = none
    ∧ processSum env .STRING distinct vals = none
    ∧ processAvg env .TEXT distinct vals = none
    ∧ processAvg env .STRING distinct vals = none
    ∧ ((∀ v ∈ (if distinct then dedupFirst vals else vals),
          startsWithL (env.idToString v) env.valueFloatMarker = true) →
        processSum env .KB distinct vals
          = some (((if distinct then dedupFirst vals else vals).map
              (kbDecode env)).sum))
    ∧ ((∃ v ∈ (if distinct then dedupFirst vals else vals),
          startsWithL (env.idToString v) env.valueFloatMarker = false) →
        processSum env .KB distinct vals = none) := by
  intro env distinct vals
  refine ⟨rfl, rfl, rfl, rfl, ?_, ?_⟩
  · intro h
    cases distinct
    · simpa [processSum] using sumKBPlain_good env vals 0 (by simpa using h)
    · simpa [processSum, dedupFirst] using
        sumKBDistinct_good env vals [] 0 (by simpa [dedupFirst] using h)
  · intro h
    cases distinct
    · simpa [processSum] using sumKBPlain_bad env vals 0 (by simpa using h)
    · simpa [processSum, dedupFirst] using
        sumKBDistinct_bad env vals [] 0 (by simpa [dedupFirst] using h)

/-- Witness for C5 at a concrete vocabulary: identifier 0 decodes to the
float literal 5, identifier 1 to a plain word, so SUM over [0] is 5 and SUM
over [0, 1] is NaN. -/
theorem sum_avg_text_string_nan_kb_decoding_witness :
    processSum envKB .KB false [0] = some 5
    ∧ processSum envKB .KB false [0, 1] = none := by
  constructor
  · have h := (sum_avg_text_string_nan_kb_decoding envKB false [0]).2.2.2.2.1
      (by decide)
    simpa [kbDecode, envKB] using h
  · exact (sum_avg_text_string_nan_kb_decoding envKB false [0, 1]).2.2.2.2.2
      ⟨1, by simp, by decide⟩

/-- C6: for any limit l and offset, the rewritten result has exactly
max(0, min(l, sourceCount - offset)) rows; a limit of 0 produces no rows,
and an offset at or past the end of the source produces no rows (and no
error, the function being total). -/
theorem applyLimitOffset_row_count :
    ∀ (α : Type) (l off : Nat) (rows : List α),
    ((applyLimitOffset ⟨some l, off⟩ rows).length : ℤ)
      = max 0 (min (l : ℤ) ((rows.length : ℤ) - (off : ℤ)))
    ∧ applyLimitOffset ⟨some 0, off⟩ rows = []
    ∧ (∀ k : Nat, applyLimitOffset ⟨some l, rows.length + k⟩ rows = []) := by
  intro α l off rows
  refine ⟨?_, ?_, ?_⟩
  · simp [applyLimitOffset]
    omega
  · simp [applyLimitOffset]
  · intro k
    simp [applyLimitOffset]

/-- C7: whenever a group-by variable or the parsed argument variable of an
aggregate alias is missing from the sub-result's variable-to-column map,
computeResult returns a result with zero rows and the declared column
count; the run splitting and the aggregate kernels are never invoked (the
rows are empty) and no exception arises (the function is total). -/
theorem missing_variable_yields_empty_result :
    ∀ (env : Env) (gvars : List (List Char)) (aliases : List Alias)
      (m : List (List Char × Nat)) (inputTypes : List ResultType)
      (input : List Row) (inVocab : LocalVocab),
      ((∃ v ∈ gvars, lookupVC m v = none)
        ∨ (∃ al ∈ groupByAliases aliases, al.isAggregate = true ∧
            ∃ pa, parseAlias al.function = some pa
              ∧ lookupVC m pa.inVarName = none)) →
      (computeResult env gvars aliases m inputTypes input inVocab).rows = []
      ∧ (computeResult env gvars aliases m inputTypes input inVocab).nofColumns
          = getResultWidth gvars aliases := by
  intro env gvars aliases m inputTypes input inVocab h
  unfold computeResult
  rcases h with h | h
  · rw [resolveGroupVars_none m gvars h]
    exact ⟨rfl, rfl⟩
  · cases hg : resolveGroupVars m gvars with
    | none => exact ⟨rfl, rfl⟩
    | some gcols =>
      rw [resolveAliases_none m _ h]
      exact ⟨rfl, rfl⟩

/-- Witness for C7: a group-by over the variable ?x against an empty
variable-to-column map produces zero rows and one declared column. -/
theorem missing_variable_yields_empty_result_witness :
    (computeResult envTrivial ["?x".toList] [] [] [] [] []).rows = []
    ∧ (computeResult envTrivial ["?x".toList] [] [] [] [] []).nofColumns = 1 := by
  have h := missing_variable_yields_empty_result envTrivial ["?x".toList] [] []
    [] [] [] (Or.inl ⟨"?x".toList, by simp, rfl⟩)
  exact ⟨h.1, by rw [h.2]; rfl⟩

/-- C8: the output column layout — group-by variables sorted
lexicographically, followed by the aggregate aliases (non-aggregates
discarded) sorted by output variable name — is invariant under any
permutation of the user's input order of either list. -/
theorem column_layout_input_order_invariant :
    ∀ (g1 g2 : List (List Char)) (a1 a2 : List Alias),
      g1.Perm g2 → a1.Perm a2 → columnLayout g1 a1 = columnLayout g2 a2 := by
  intro g1 g2 a1 a2 hg ha
  unfold columnLayout groupByAliases
  congr 1
  · exact List.eq_of_perm_of_sorted
      ((List.perm_insertionSort _ _).trans
        (hg.trans (List.perm_insertionSort _ _).symm))
      (List.sorted_insertionSort _ _) (List.sorted_insertionSort _ _)
  · apply List.eq_of_perm_of_sorted (r := (· ≤ · : List Char → List Char → Prop))
    · exact ((List.perm_insertionSort _ _).map _).trans
        (((ha.filter _).map _).trans
          ((List.perm_insertionSort _ _).map _).symm)
    · exact List.Pairwise.map _ (fun a b h => h)
        (List.sorted_insertionSort _ _)
    · exact List.Pairwise.map _ (fun a b h => h)
        (List.sorted_insertionSort _ _)

/-- Witness for C8 at two concretely permuted inputs. -/
theorem column_layout_input_order_invariant_witness :
    columnLayout ["?b".toList, "?a".toList]
        [⟨"?d".toList, "COUNT(?y)".toList, true⟩,
         ⟨"?c".toList, "SUM(?y)".toList, true⟩]
      = columnLayout ["?a".toList, "?b".toList]
        [⟨"?c".toList, "SUM(?y)".toList, true⟩,
         ⟨"?d".toList, "COUNT(?y)".toList, true⟩] :=
  column_layout_input_order_invariant _ _ _ _
    (List.isPerm_iff.mp (by decide)) (List.isPerm_iff.mp (by decide))

/-- C9: the GROUP_CONCAT cell write assigns the output local vocabulary's
current size and then appends the built string, so the stored index is
strictly below the vocabulary's size from that moment on and refers to the
built string. -/
theorem groupConcat_vocab_index_in_bounds :
    ∀ (env : Env) (inVocab : LocalVocab) (ty : ResultType)
      (distinct : Bool) (delim : List Char) (init : List Ident) (lastV : Ident)
      (outVocab : LocalVocab),
    (processGroupConcat env inVocab ty distinct delim init lastV outVocab).1
      < (processGroupConcat env inVocab ty distinct delim init lastV outVocab).2.length
    ∧ localVocabGet
        (processGroupConcat env inVocab ty distinct delim init lastV outVocab).2
        (processGroupConcat env inVocab ty distinct delim init lastV outVocab).1
      = groupConcatString env inVocab ty distinct delim init lastV := by
  intro env inVocab ty distinct delim init lastV outVocab
  constructor
  · simp [processGroupConcat]
  · simp [processGroupConcat, localVocabGet]

/-- C10: aggregate kind classification looks only at the head of the
function string, testing COUNT, GROUP_CONCAT, SAMPLE, MIN, MAX, SUM, AVG
in that order: any string starting with one of the seven names is
classified as that aggregate — COUNTRY(?x) is classified COUNT — and a
string starting with none of them is the only case that is skipped. -/
theorem aggregate_kind_from_head_token :
    (∀ rest, parseAggKind ("COUNT".toList ++ rest) = some .COUNT)
    ∧ (∀ rest, parseAggKind ("GROUP_CONCAT".toList ++ rest) = some .GROUP_CONCAT)
    ∧ (∀ rest, parseAggKind ("SAMPLE".toList ++ rest) = some .SAMPLE)
    ∧ (∀ rest, parseAggKind ("MIN".toList ++ rest) = some .MIN)
    ∧ (∀ rest, parseAggKind ("MAX".toList ++ rest) = some .MAX)
    ∧ (∀ rest, parseAggKind ("SUM".toList ++ rest) = some .SUM)
    ∧ (∀ rest, parseAggKind ("AVG".toList ++ rest) = some .AVG)
    ∧ parseAggKind "COUNTRY(?x)".toList = some .COUNT
    ∧ (∀ fn, parseAggKind fn = none ↔
        (startsWithL fn "COUNT".toList = false
          ∧ startsWithL fn "GROUP_CONCAT".toList = false
          ∧ startsWithL fn "SAMPLE".toList = false
          ∧ startsWithL fn "MIN".toList = false
          ∧ startsWithL fn "MAX".toList = false
          ∧ startsWithL fn "SUM".toList = false
          ∧ startsWithL fn "AVG".toList = false)) := by
  refine ⟨fun rest => by simp [parseAggKind, startsWithL],
    fun rest => by simp [parseAggKind, startsWithL],
    fun rest => by simp [parseAggKind, startsWithL],
    fun rest => by simp [parseAggKind, startsWithL],
    fun rest => by simp [parseAggKind, startsWithL],
    fun rest => by simp [parseAggKind, startsWithL],
    fun rest => by simp [parseAggKind, startsWithL], by rfl, ?_⟩
  intro fn
  unfold parseAggKind
  by_cases h1 : startsWithL fn "COUNT".toList = true <;>
  by_cases h2 : startsWithL fn "GROUP_CONCAT".toList = true <;>
  by_cases h3 : startsWithL fn "SAMPLE".toList = true <;>
  by_cases h4 : startsWithL fn "MIN".toList = true <;>
  by_cases h5 : startsWithL fn "MAX".toList = true <;>
  by_cases h6 : startsWithL fn "SUM".toList = true <;>
  by_cases h7 : startsWithL fn "AVG".toList = true <;>
  simp_all

end QLever
